import Mathlib

/-!
Verification of the click-pop core (`click_pop_core.py`) and the click-router
discard gate of `obs_click_pop.py`.

The Python functions are embedded shallowly:
* coordinates and timestamps become `ℚ` (Python numbers; all claims involve
  exact arithmetic only);
* the marker list `active_clicks` is a `List (String × ℚ)` of
  `(source_name, expire_time)` pairs;
* `allocate_slot` in Python may mutate its list argument in place, so the
  embedding returns the resulting list alongside `(slot_name, evicted_name)`;
* Python object identity between a display produced by
  `find_display_for_point` and the module-level `_captured_display` (which is
  always `None` or an element of `_all_displays`) is modelled by the index of
  the display inside the registry list.
-/

namespace ClickPop

/-- A display descriptor: origin and logical size, as the `x, y, w, h` keys of
the display dicts used by `find_display_for_point`. -/
structure Display where
  x : ℚ
  y : ℚ
  w : ℚ
  h : ℚ
deriving DecidableEq, Repr

/-- The containment test of `find_display_for_point`:
`d["x"] <= x < d["x"] + d["w"] and d["y"] <= y < d["y"] + d["h"]`. -/
def hitsDisplay (d : Display) (x y : ℚ) : Prop :=
  d.x ≤ x ∧ x < d.x + d.w ∧ d.y ≤ y ∧ y < d.y + d.h

instance (d : Display) (x y : ℚ) : Decidable (hitsDisplay d x y) := by
  unfold hitsDisplay
  infer_instance

/-- Embedding of `find_display_for_point(x, y, displays)`: return the first
display whose bounds contain `(x, y)`, or `None`. -/
def find_display_for_point (x y : ℚ) : List Display → Option Display
  | [] => none
  | d :: rest =>
    if d.x ≤ x ∧ x < d.x + d.w ∧ d.y ≤ y ∧ y < d.y + d.h then some d
    else find_display_for_point x y rest

/-- Embedding of `map_coords`: map mouse coordinates to OBS canvas
coordinates, centered on the circle.
Here `capture_scale_x`/`capture_scale_y` are `none` when no Display
Capture transform is known, in which case the proportional fallback
`canvas / monitor` is used per axis. -/
def map_coords (x y canvas_w canvas_h monitor_w monitor_h circle_size : ℚ)
    (crop_left : ℚ := 0) (crop_top : ℚ := 0)
    (capture_pos_x : ℚ := 0) (capture_pos_y : ℚ := 0)
    (capture_scale_x : Option ℚ := none) (capture_scale_y : Option ℚ := none) :
    ℚ × ℚ :=
  let sx := match capture_scale_x with
    | none => canvas_w / monitor_w
    | some s => s
  let sy := match capture_scale_y with
    | none => canvas_h / monitor_h
    | some s => s
  let cropped_x := x - crop_left
  let cropped_y := y - crop_top
  (capture_pos_x + cropped_x * sx - circle_size / 2,
   capture_pos_y + cropped_y * sy - circle_size / 2)

/-- Python's `s.startswith(pfx)`: the character sequence of `pfx` is a prefix
of the character sequence of `s`. -/
def startsWith (s pfx : String) : Bool :=
  List.isPrefixOf pfx.data s.data

/-- The free-slot scan of `allocate_slot`: iterate over the candidate indices
(Python: `for i in range(max_circles)`), returning the first candidate name
`prefix + str(i)` not in use in `active_clicks`. -/
def scanFree (pfx : String) (active_clicks : List (String × ℚ)) :
    List Nat → Option String
  | [] => none
  | i :: rest =>
    if active_clicks.any (fun p => p.1 == pfx ++ toString i) then
      scanFree pfx active_clicks rest
    else
      some (pfx ++ toString i)

/-- The eviction scan of `allocate_slot`: find the first entry whose name
starts with the pool's name stem (Python: `n.startswith(prefix)`), and
remove it in place (`active_clicks.pop(i)`); returns the evicted name together
with the list after removal, or `none` when no entry matches. -/
def evictScan (pfx : String) : List (String × ℚ) →
    Option (String × List (String × ℚ))
  | [] => none
  | (n, t) :: rest =>
    if startsWith n pfx then some (n, rest)
    else
      match evictScan pfx rest with
      | some (e, l) => some (e, (n, t) :: l)
      | none => none

/-- Embedding of `allocate_slot(prefix, max_circles, active_clicks)`: find a
free slot or evict the oldest entry for the pool.  Returns
`((slot_name, evicted_name?), active_clicks_after_the_call)`; the list
component models the in-place mutation of the Python argument. -/
def allocate_slot (pfx : String) (max_circles : Nat)
    (active_clicks : List (String × ℚ)) :
    (String × Option String) × List (String × ℚ) :=
  match scanFree pfx active_clicks (List.range max_circles) with
  | some candidate => ((candidate, none), active_clicks)
  | none =>
    match evictScan pfx active_clicks with
    | some (n, rest) => ((n, some n), rest)
    | none => ((pfx ++ "0", none), active_clicks)

/-- Embedding of `expire_circles(active_clicks, now)`: partition into
still-active and expired (an entry expires when `now >= expire_t`). -/
def expire_circles (active_clicks : List (String × ℚ)) (now : ℚ) :
    List (String × ℚ) × List String :=
  match active_clicks with
  | [] => ([], [])
  | (name, expire_t) :: rest =>
    let r := expire_circles rest now
    if now ≥ expire_t then (r.1, name :: r.2)
    else ((name, expire_t) :: r.1, r.2)

/-- Index-returning variant of `find_display_for_point`, used to model Python
object identity between the hit display and the captured display: both are
elements of the same `_all_displays` list, so identity is sameness of index. -/
def find_display_idx (x y : ℚ) : List Display → Option Nat
  | [] => none
  | d :: rest =>
    if d.x ≤ x ∧ x < d.x + d.w ∧ d.y ≤ y ∧ y < d.y + d.h then some 0
    else (find_display_idx x y rest).map (· + 1)

/-- The discard gate at the top of `_spawn_circle`:

```
display = None
if len(_all_displays) > 1:
    display = find_display_for_point(x, y, _all_displays)
    if _captured_display is not None and display is not _captured_display:
        return
```

`captured` is the index of `_captured_display` in `displays` (or `none`).
Returns `true` when the event proceeds and `false` when it is discarded
(producing no marker and consuming no slot). -/
def spawn_gate (displays : List Display) (captured : Option Nat)
    (x y : ℚ) : Bool :=
  if 1 < displays.length then
    let display := find_display_idx x y displays
    if captured ≠ none ∧ display ≠ captured then false else true
  else true

/-! ### Helper lemmas about the allocator scans -/

/-- A candidate name is reported in use by the `any` test exactly when it
occurs among the names of `active`. -/
theorem any_name_eq (c : String) (active : List (String × ℚ)) :
    (active.any fun p => p.1 == c) = true ↔ c ∈ active.map Prod.fst := by
  simp [List.any_eq_true]

/-- A string extended on the right still starts with the original string. -/
theorem startsWith_append (pfx s : String) :
    startsWith (pfx ++ s) pfx = true := by
  unfold startsWith
  rw [String.data_append, List.isPrefixOf_iff_prefix]
  exact List.prefix_append _ _

/-- The free-slot scan finds nothing when every candidate index is in use. -/
theorem scanFree_eq_none (pfx : String) (active : List (String × ℚ))
    (idxs : List Nat)
    (h : ∀ i ∈ idxs, (pfx ++ toString i) ∈ active.map Prod.fst) :
    scanFree pfx active idxs = none := by
  induction idxs with
  | nil => rfl
  | cons i rest ih =>
    have htrue : (active.any fun p => p.1 == pfx ++ toString i) = true :=
      (any_name_eq _ _).mpr (h i (by simp))
    simp only [scanFree, htrue, if_true]
    exact ih fun j hj => h j (by simp [hj])

/-- The free-slot scan returns the candidate at the first position whose name
is not in use. -/
theorem scanFree_first (pfx : String) (active : List (String × ℚ))
    (idxs : List Nat) (k : Nat) (hk : k < idxs.length)
    (hbefore : ∀ j ∈ idxs.take k, (pfx ++ toString j) ∈ active.map Prod.fst)
    (hfree : (pfx ++ toString (idxs.get ⟨k, hk⟩)) ∉ active.map Prod.fst) :
    scanFree pfx active idxs = some (pfx ++ toString (idxs.get ⟨k, hk⟩)) := by
  induction idxs generalizing k with
  | nil => exact absurd hk (by simp)
  | cons i rest ih =>
    cases k with
    | zero =>
      have hfalse : (active.any fun p => p.1 == pfx ++ toString i) = false := by
        rw [Bool.eq_false_iff, Ne, any_name_eq]
        simpa using hfree
      simp [scanFree, hfalse]
    | succ k =>
      have htrue : (active.any fun p => p.1 == pfx ++ toString i) = true :=
        (any_name_eq _ _).mpr (hbefore i (by simp))
      simp only [scanFree, htrue, if_true]
      exact ih k (by simpa using hk)
        (fun j hj => hbefore j (by simp [hj]))
        (by simpa using hfree)

/-- The eviction scan finds nothing when no entry starts with the stem. -/
theorem evictScan_eq_none (pfx : String) (l : List (String × ℚ))
    (h : ∀ e ∈ l, startsWith e.1 pfx = false) :
    evictScan pfx l = none := by
  induction l with
  | nil => rfl
  | cons hd tl ih =>
    obtain ⟨n, t⟩ := hd
    have h0 : startsWith n pfx = false := h (n, t) (by simp)
    have htl : evictScan pfx tl = none := ih fun e he => h e (by simp [he])
    simp [evictScan, h0, htl]

/-- When some entry starts with the stem, the eviction scan returns the first
such entry and removes exactly it. -/
theorem evictScan_first (pfx : String) (l : List (String × ℚ))
    (h : ∃ e ∈ l, startsWith e.1 pfx = true) :
    ∃ j, ∃ hj : j < l.length,
      startsWith (l.get ⟨j, hj⟩).1 pfx = true ∧
      (∀ e ∈ l.take j, startsWith e.1 pfx = false) ∧
      evictScan pfx l = some ((l.get ⟨j, hj⟩).1, l.eraseIdx j) := by
  induction l with
  | nil => simp at h
  | cons hd tl ih =>
    obtain ⟨m, t⟩ := hd
    by_cases h0 : startsWith m pfx = true
    · exact ⟨0, by simp, by simpa using h0, by simp, by simp [evictScan, h0]⟩
    · have h0f : startsWith m pfx = false := by simpa using h0
      have hex : ∃ e ∈ tl, startsWith e.1 pfx = true := by
        obtain ⟨e, he, hp⟩ := h
        rcases List.mem_cons.mp he with rfl | hmem
        · exact absurd hp h0
        · exact ⟨e, hmem, hp⟩
      obtain ⟨j, hj, h1, h2, h3⟩ := ih hex
      refine ⟨j + 1, by simpa using Nat.succ_lt_succ hj, by simpa using h1,
        ?_, ?_⟩
      · intro e he
        rw [List.take_succ_cons] at he
        rcases List.mem_cons.mp he with rfl | hmem
        · exact h0f
        · exact h2 e hmem
      · simp [evictScan, h0f, h3]

/-- Inversion for the eviction scan: a successful scan names an entry of the
list and returns the list with exactly that entry removed. -/
theorem evictScan_some (pfx : String) (l : List (String × ℚ))
    (n : String) (l2 : List (String × ℚ))
    (h : evictScan pfx l = some (n, l2)) :
    ∃ j, ∃ hj : j < l.length, (l.get ⟨j, hj⟩).1 = n ∧ l2 = l.eraseIdx j := by
  induction l generalizing l2 with
  | nil => simp [evictScan] at h
  | cons hd tl ih =>
    obtain ⟨m, t⟩ := hd
    by_cases h0 : startsWith m pfx = true
    · simp only [evictScan, h0, if_true, Option.some.injEq, Prod.mk.injEq] at h
      obtain ⟨rfl, rfl⟩ := h
      exact ⟨0, by simp, by simp, by simp⟩
    · have h0f : startsWith m pfx = false := by simpa using h0
      cases hev : evictScan pfx tl with
      | none => simp [evictScan, h0f, hev] at h
      | some pr =>
        obtain ⟨e, l3⟩ := pr
        simp only [evictScan, h0f, Bool.false_eq_true, if_false, hev,
          Option.some.injEq, Prod.mk.injEq] at h
        obtain ⟨rfl, rfl⟩ := h
        obtain ⟨j, hj, hname, hrest⟩ := ih l3 hev
        exact ⟨j + 1, by simpa using Nat.succ_lt_succ hj, by simpa using hname,
          by simp [hrest]⟩

/-- C2: with a supplied capture transform, `map_coords` returns, per axis,
`pos + (point - crop) * scale - diameter/2`; in particular with
`crop_left = 960`, `crop_top = 0`, `pos = (0,0)`, `scale = (1,1)`,
diameter `80`, point `(1440, 540)` it returns `(440, 500)` for every canvas
and monitor size. -/
theorem map_coords_transform (x y cw ch mw mh size cl ct px py sx sy : ℚ) :
    map_coords x y cw ch mw mh size cl ct px py (some sx) (some sy) =
      (px + (x - cl) * sx - size / 2, py + (y - ct) * sy - size / 2) ∧
    map_coords 1440 540 cw ch mw mh 80 960 0 0 0 (some 1) (some 1) =
      (440, 500) := by
  constructor
  · rfl
  · show ((0 : ℚ) + (1440 - 960) * 1 - 80 / 2,
        (0 : ℚ) + (540 - 0) * 1 - 80 / 2) = (440, 500)
    norm_num

/-- C7: without a capture transform, `map_coords` returns, per axis,
`point * (canvas / monitor) - diameter/2`; concretely for canvas 1920×1080,
monitor 1920×1080, diameter 80, point `(960, 540)` the result is
`(920, 500)`. -/
theorem map_coords_fallback (x y cw ch mw mh size : ℚ)
    (hw : 0 < mw) (hh : 0 < mh) :
    map_coords x y cw ch mw mh size =
      (x * (cw / mw) - size / 2, y * (ch / mh) - size / 2) ∧
    map_coords 960 540 1920 1080 1920 1080 80 = (920, 500) := by
  constructor
  · show ((0 : ℚ) + (x - 0) * (cw / mw) - size / 2,
        (0 : ℚ) + (y - 0) * (ch / mh) - size / 2) = _
    ring_nf
  · show ((0 : ℚ) + (960 - 0) * (1920 / 1920) - 80 / 2,
        (0 : ℚ) + (540 - 0) * (1080 / 1080) - 80 / 2) = (920, 500)
    norm_num

/-- Witness for C7 at a concrete input. -/
theorem map_coords_fallback_witness :
    map_coords 960 540 1920 1080 1920 1080 80 = (920, 500) :=
  (map_coords_fallback 960 540 1920 1080 1920 1080 80
    (by norm_num) (by norm_num)).2

/-- C8: calling `map_coords` with the explicit transform `crop = (0,0)`,
`pos = (0,0)`, `scale_x = canvas_w / monitor_w`, `scale_y = canvas_h /
monitor_h` yields exactly the same result as calling it with no transform. -/
theorem map_coords_transform_equiv (x y cw ch mw mh size : ℚ)
    (hw : 0 < mw) (hh : 0 < mh) :
    map_coords x y cw ch mw mh size 0 0 0 0 (some (cw / mw)) (some (ch / mh)) =
      map_coords x y cw ch mw mh size := by
  rfl

/-- Witness for C8 at a concrete input. -/
theorem map_coords_transform_equiv_witness :
    map_coords 10 20 1920 1080 2560 1440 80 0 0 0 0
      (some ((1920 : ℚ) / 2560)) (some ((1080 : ℚ) / 1440)) =
      map_coords 10 20 1920 1080 2560 1440 80 :=
  map_coords_transform_equiv 10 20 1920 1080 2560 1440 80
    (by norm_num) (by norm_num)

/-- C6: `expire_circles` partitions its input: an entry goes to
`expired_names` exactly when `now ≥ expire_at` (equality counts as expired),
otherwise to `still_live`; both outputs preserve the relative input order and
together cover the input (stated as exact filter equations).  The boundary
instance: an entry with `expire_at = 10` is expired at `now = 10` and live at
every `now < 10`. -/
theorem expire_circles_partition (active : List (String × ℚ)) (now : ℚ) :
    expire_circles active now =
      (active.filter (fun p => decide (now < p.2)),
       (active.filter (fun p => decide (p.2 ≤ now))).map Prod.fst) ∧
    expire_circles [("a", 10)] 10 = ([], ["a"]) ∧
    ∀ t : ℚ, t < 10 → expire_circles [("a", 10)] t = ([("a", 10)], []) := by
  refine ⟨?_, by norm_num [expire_circles], ?_⟩
  · induction active with
    | nil => rfl
    | cons hd tl ih =>
      obtain ⟨name, expire_t⟩ := hd
      by_cases h : now ≥ expire_t
      · simp [expire_circles, ih, h, not_lt.mpr h]
      · simp [expire_circles, ih, h, lt_of_not_ge h, not_le.mpr (lt_of_not_ge h)]
  · intro t ht
    simp [expire_circles, not_le.mpr ht]

/-- C5: when some index in `[0, capacity)` has its slot name absent from the
list, `allocate_slot` returns the name with the smallest such index (scanning
ascending, filling gaps before extending), reports no eviction, and leaves the
list unchanged. -/
theorem allocate_slot_gap (pfx : String) (cap : Nat)
    (active : List (String × ℚ)) (i : Nat) (hi : i < cap)
    (habsent : (pfx ++ toString i) ∉ active.map Prod.fst)
    (hbelow : ∀ j, j < i → (pfx ++ toString j) ∈ active.map Prod.fst) :
    allocate_slot pfx cap active = ((pfx ++ toString i, none), active) := by
  have hlen : i < (List.range cap).length := by simpa using hi
  have hget : (List.range cap).get ⟨i, hlen⟩ = i := by simp
  have h1 : ∀ j ∈ (List.range cap).take i,
      (pfx ++ toString j) ∈ active.map Prod.fst := by
    intro j hj
    rw [List.take_range] at hj
    exact hbelow j (lt_of_lt_of_le (List.mem_range.mp hj) (min_le_left i cap))
  have hscan := scanFree_first pfx active (List.range cap) i hlen h1
    (by rwa [hget])
  rw [hget] at hscan
  simp [allocate_slot, hscan]

/-- Witness for C5 at the spec's example: occupied slots `{0, 1, 3}` out of
capacity 5; the next allocation returns slot 2 with no eviction. -/
theorem allocate_slot_gap_witness :
    ((2 : Nat) < 5 ∧
      ("p" ++ toString 2) ∉
        ([("p0", (1 : ℚ)), ("p1", 2), ("p3", 3)]).map Prod.fst ∧
      ∀ j, j < 2 → ("p" ++ toString j) ∈
        ([("p0", (1 : ℚ)), ("p1", 2), ("p3", 3)]).map Prod.fst) ∧
    allocate_slot "p" 5 [("p0", (1 : ℚ)), ("p1", 2), ("p3", 3)] =
      (("p" ++ toString 2, none), [("p0", (1 : ℚ)), ("p1", 2), ("p3", 3)]) :=
  ⟨⟨by norm_num, by decide, by decide⟩,
    allocate_slot_gap "p" 5 _ 2 (by norm_num) (by decide) (by decide)⟩

/-- C1 as literally stated is refuted at capacity 0: with `pfx = "p"`,
`capacity = 0` and an empty marker list, the premise "all capacity slot names
are present" holds vacuously, yet `allocate_slot` evicts nothing (there is no
entry with the given stem to evict) and returns `("p0", none)`. -/
theorem allocate_slot_evict_counterexample :
    ¬ (∀ (pfx : String) (cap : Nat) (active : List (String × ℚ)),
        (∀ i, i < cap → (pfx ++ toString i) ∈ active.map Prod.fst) →
        ∃ j, ∃ hj : j < active.length,
          startsWith (active.get ⟨j, hj⟩).1 pfx = true ∧
          (∀ e ∈ active.take j, startsWith e.1 pfx = false) ∧
          allocate_slot pfx cap active =
            (((active.get ⟨j, hj⟩).1, some (active.get ⟨j, hj⟩).1),
             active.eraseIdx j)) := by
  intro h
  obtain ⟨j, hj, -⟩ := h "p" 0 [] (fun i hi => absurd hi (by omega))
  exact absurd hj (by simp)

/-- C1 (amended to positive capacity): when all `capacity ≥ 1` slot names are
present, `allocate_slot` evicts the first (earliest-positioned) entry whose
name starts with the given stem, removes exactly that entry from the list, and
returns its name as both slot name and evicted name; every entry before it in
the list does not have the stem. -/
theorem allocate_slot_evict (pfx : String) (cap : Nat)
    (active : List (String × ℚ)) (hcap : 0 < cap)
    (hfull : ∀ i, i < cap → (pfx ++ toString i) ∈ active.map Prod.fst) :
    ∃ j, ∃ hj : j < active.length,
      startsWith (active.get ⟨j, hj⟩).1 pfx = true ∧
      (∀ e ∈ active.take j, startsWith e.1 pfx = false) ∧
      allocate_slot pfx cap active =
        (((active.get ⟨j, hj⟩).1, some (active.get ⟨j, hj⟩).1),
         active.eraseIdx j) := by
  have hscan : scanFree pfx active (List.range cap) = none :=
    scanFree_eq_none _ _ _ (fun i hi => hfull i (List.mem_range.mp hi))
  have hex : ∃ e ∈ active, startsWith e.1 pfx = true := by
    obtain ⟨e, he, heq⟩ := List.mem_map.mp (hfull 0 hcap)
    refine ⟨e, he, ?_⟩
    rw [heq]
    exact startsWith_append pfx (toString 0)
  obtain ⟨j, hj, h1, h2, h3⟩ := evictScan_first pfx active hex
  exact ⟨j, hj, h1, h2, by simp [allocate_slot, hscan, h3]⟩

/-- Witness for the amended C1 at the spec's example shape: capacity 2 fully
occupied in insertion order `p0, p1`; the eviction takes `p0` (index 0). -/
theorem allocate_slot_evict_witness :
    ((0 : Nat) < 2 ∧
      ∀ i, i < 2 → ("p" ++ toString i) ∈
        ([("p0", (1 : ℚ)), ("p1", 2)]).map Prod.fst) ∧
    ∃ j, ∃ hj : j < ([("p0", (1 : ℚ)), ("p1", 2)]).length,
      startsWith (([("p0", (1 : ℚ)), ("p1", 2)]).get ⟨j, hj⟩).1 "p" = true ∧
      (∀ e ∈ ([("p0", (1 : ℚ)), ("p1", 2)]).take j,
        startsWith e.1 "p" = false) ∧
      allocate_slot "p" 2 [("p0", (1 : ℚ)), ("p1", 2)] =
        (((([("p0", (1 : ℚ)), ("p1", 2)]).get ⟨j, hj⟩).1,
          some (([("p0", (1 : ℚ)), ("p1", 2)]).get ⟨j, hj⟩).1),
         ([("p0", (1 : ℚ)), ("p1", 2)]).eraseIdx j) :=
  ⟨⟨by norm_num, by decide⟩,
    allocate_slot_evict "p" 2 _ (by norm_num) (by decide)⟩

/-- C9: on an inconsistent pool (all slot names reported occupied yet no entry
has the stem — satisfiable only at capacity 0), `allocate_slot` falls back to
the `prefix + "0"` name, reports no eviction, and leaves the list unchanged;
being a total function, it raises nothing. -/
theorem allocate_slot_fallback (pfx : String) (cap : Nat)
    (active : List (String × ℚ))
    (hfull : ∀ i, i < cap → (pfx ++ toString i) ∈ active.map Prod.fst)
    (hnone : ∀ e ∈ active, startsWith e.1 pfx = false) :
    allocate_slot pfx cap active = ((pfx ++ "0", none), active) := by
  cases cap with
  | zero =>
    have hev := evictScan_eq_none pfx active hnone
    simp [allocate_slot, List.range_zero, scanFree, hev]
  | succ n =>
    exfalso
    obtain ⟨e, he, heq⟩ := List.mem_map.mp (hfull 0 (Nat.succ_pos n))
    have hfalse := hnone e he
    rw [heq, startsWith_append] at hfalse
    exact absurd hfalse (by simp)

/-- Witness for C9 at a concrete inconsistent pool: capacity 0 with one
foreign-stem entry. -/
theorem allocate_slot_fallback_witness :
    ((∀ i, i < 0 → ("p" ++ toString i) ∈
        ([(("q0" : String), (1 : ℚ))]).map Prod.fst) ∧
      ∀ e ∈ [(("q0" : String), (1 : ℚ))], startsWith e.1 "p" = false) ∧
    allocate_slot "p" 0 [(("q0" : String), (1 : ℚ))] =
      (("p" ++ "0", none), [(("q0" : String), (1 : ℚ))]) :=
  ⟨⟨fun i hi => absurd hi (by omega), by decide⟩,
    allocate_slot_fallback "p" 0 _ (fun i hi => absurd hi (by omega))
      (by decide)⟩

/-- C10: whenever `allocate_slot` reports no eviction, the marker list it
returns is exactly the one passed in; when it reports an eviction, the
returned slot name equals the evicted name, which names an entry of the input
list, and the returned list is the input with exactly that one entry
removed. -/
theorem allocate_slot_frame (pfx : String) (cap : Nat)
    (active : List (String × ℚ)) :
    ((allocate_slot pfx cap active).1.2 = none →
      (allocate_slot pfx cap active).2 = active) ∧
    (∀ e, (allocate_slot pfx cap active).1.2 = some e →
      (allocate_slot pfx cap active).1.1 = e ∧
      ∃ j, ∃ hj : j < active.length, (active.get ⟨j, hj⟩).1 = e ∧
        (allocate_slot pfx cap active).2 = active.eraseIdx j) := by
  rcases hscan : scanFree pfx active (List.range cap) with _ | c
  · rcases hev : evictScan pfx active with _ | ⟨n, rest⟩
    · refine ⟨fun _ => by simp [allocate_slot, hscan, hev], fun e he => ?_⟩
      exact absurd he (by simp [allocate_slot, hscan, hev])
    · obtain ⟨j, hj, hname, hrest⟩ := evictScan_some pfx active n rest hev
      refine ⟨fun h => absurd h (by simp [allocate_slot, hscan, hev]),
        fun e he => ?_⟩
      have hne : n = e := by simpa [allocate_slot, hscan, hev] using he
      subst hne
      exact ⟨by simp [allocate_slot, hscan, hev], j, hj, hname,
        by simp [allocate_slot, hscan, hev, hrest]⟩
  · refine ⟨fun _ => by simp [allocate_slot, hscan], fun e he => ?_⟩
    exact absurd he (by simp [allocate_slot, hscan])

/-- C3: `find_display_for_point` returns the first display in the sequence
that contains the point under the half-open test
`d.x ≤ px < d.x + d.w ∧ d.y ≤ py < d.y + d.h` (left/top edge included,
right/bottom edge excluded), and returns `none` exactly when no display
contains the point — in particular for the empty sequence.  The embedding is a
pure function, so the call mutates nothing. -/
theorem find_display_for_point_spec (x y : ℚ) (ds : List Display) :
    (∀ d, find_display_for_point x y ds = some d ↔
        (hitsDisplay d x y ∧
          ∃ pre post, ds = pre ++ d :: post ∧
            ∀ e ∈ pre, ¬ hitsDisplay e x y)) ∧
    (find_display_for_point x y ds = none ↔
      ∀ d ∈ ds, ¬ hitsDisplay d x y) := by
  induction ds with
  | nil =>
    refine ⟨fun d => ⟨fun h => absurd h (by simp [find_display_for_point]),
      ?_⟩, by simp [find_display_for_point]⟩
    rintro ⟨-, pre, post, habs, -⟩
    exact absurd habs.symm (by simp)
  | cons d0 rest ih =>
    obtain ⟨ih1, ih2⟩ := ih
    by_cases h0 : d0.x ≤ x ∧ x < d0.x + d0.w ∧ d0.y ≤ y ∧ y < d0.y + d0.h
    · have heq : find_display_for_point x y (d0 :: rest) = some d0 := by
        rw [find_display_for_point, if_pos h0]
      constructor
      · intro d
        rw [heq]
        constructor
        · intro h
          obtain rfl : d0 = d := by simpa using h
          exact ⟨h0, [], rest, rfl, by simp⟩
        · rintro ⟨hd, pre, post, hdec, hpre⟩
          cases pre with
          | nil =>
            obtain ⟨rfl, -⟩ : d0 = d ∧ rest = post := by simpa using hdec
            rfl
          | cons p ps =>
            obtain ⟨rfl, -⟩ : d0 = p ∧ rest = ps ++ d :: post := by
              simpa using hdec
            exact absurd h0 (hpre d0 (by simp))
      · rw [heq]
        constructor
        · intro h
          exact absurd h (by simp)
        · intro hall
          exact absurd h0 (hall d0 (by simp))
    · have heq : find_display_for_point x y (d0 :: rest) =
          find_display_for_point x y rest := by
        rw [find_display_for_point, if_neg h0]
      constructor
      · intro d
        rw [heq, ih1 d]
        constructor
        · rintro ⟨hd, pre, post, rfl, hpre⟩
          refine ⟨hd, d0 :: pre, post, by simp, ?_⟩
          intro e he
          rcases List.mem_cons.mp he with rfl | hm
          · exact h0
          · exact hpre e hm
        · rintro ⟨hd, pre, post, hdec, hpre⟩
          cases pre with
          | nil =>
            obtain ⟨rfl, -⟩ : d0 = d ∧ rest = post := by simpa using hdec
            exact absurd hd h0
          | cons p ps =>
            obtain ⟨rfl, hrest⟩ : d0 = p ∧ rest = ps ++ d :: post := by
              simpa using hdec
            exact ⟨hd, ps, post, hrest, fun e he => hpre e (by simp [he])⟩
      · rw [heq, ih2]
        constructor
        · intro hall d hd
          rcases List.mem_cons.mp hd with rfl | hm
          · exact h0
          · exact hall d hm
        · intro hall d hd
          exact hall d (by simp [hd])

/-- C4: the `_spawn_circle` discard gate.  When more than one display is known
and a captured display is designated, the event is discarded exactly when the
hit-tested display differs from the captured one or no display matched; when
at most one display is known the event always proceeds, whatever the captured
designation; when no captured display is designated nothing is discarded.  The
final conjunct ties the index-level hit test used by the gate to
`find_display_for_point`: a hit index always names the display that
`find_display_for_point` returns. -/
theorem spawn_gate_spec (displays : List Display) (captured : Option Nat)
    (x y : ℚ) :
    (displays.length ≤ 1 → spawn_gate displays captured x y = true) ∧
    (captured = none → spawn_gate displays captured x y = true) ∧
    (∀ c, captured = some c → 1 < displays.length →
      (spawn_gate displays captured x y = false ↔
        find_display_idx x y displays ≠ some c)) ∧
    (∀ i, find_display_idx x y displays = some i →
      ∃ hi : i < displays.length,
        find_display_for_point x y displays =
          some (displays.get ⟨i, hi⟩)) := by
  refine ⟨?_, ?_, ?_, ?_⟩
  · intro hle
    have hnot : ¬ 1 < displays.length := by omega
    simp [spawn_gate, hnot]
  · intro hc
    subst hc
    by_cases h : 1 < displays.length <;> simp [spawn_gate, h]
  · intro c hc hlen
    subst hc
    by_cases hne : find_display_idx x y displays = some c <;>
      simp [spawn_gate, hlen, hne]
  · intro i
    induction displays generalizing i with
    | nil =>
      intro h
      exact absurd h (by simp [find_display_idx])
    | cons d0 rest ih =>
      intro h
      by_cases h0 : d0.x ≤ x ∧ x < d0.x + d0.w ∧ d0.y ≤ y ∧ y < d0.y + d0.h
      · rw [find_display_idx, if_pos h0] at h
        obtain rfl : i = 0 := by simpa using h.symm
        refine ⟨by simp, ?_⟩
        rw [find_display_for_point, if_pos h0]
        simp
      · rw [find_display_idx, if_neg h0, Option.map_eq_some'] at h
        obtain ⟨a, ha, rfl⟩ := h
        obtain ⟨hi, hfd⟩ := ih a ha
        refine ⟨by simpa using Nat.succ_lt_succ hi, ?_⟩
        rw [find_display_for_point, if_neg h0, hfd]
        simp

end ClickPop
